import Mathlib

/-!
Verification of the dpx_FusionVersioning add-in (src/dpxVersioning.py).

Names are modelled as lists of characters (`Name`).  The model is faithful
to the Python source with these documented conventions:
* Python's `str.lower` is modelled character-wise on ASCII (`asciiLower`);
  the names the add-in handles are ASCII.
* The regex `re.match(r'^(.+)_v(\d+)$', name)` is modelled as: the name
  decomposes as `base ++ "_v" ++ digits` with `base` nonempty and `digits`
  a nonempty run of decimal digits (`Char.isDigit`, the ASCII reading of
  `\d`).  Because `_v` contains non-digits, this decomposition is unique
  when it exists, so the greedy `(.+)` plays no role.  Python's `$` would
  additionally tolerate one trailing newline and `.` excludes newlines;
  host object names contain no newlines, so plain end-of-string semantics
  are used.
* Python f-string formatting of a non-negative integer is modelled by
  `decDigits`, its decimal digit string.
-/

abbrev Name := List Char

/-- Shorthand turning a string literal into the `Name` character list. -/
def str (s : String) : Name := s.toList

/-- ASCII model of Python `str.lower`, character by character. -/
def asciiLower (c : Char) : Char :=
  match c with
  | 'A' => 'a' | 'B' => 'b' | 'C' => 'c' | 'D' => 'd' | 'E' => 'e'
  | 'F' => 'f' | 'G' => 'g' | 'H' => 'h' | 'I' => 'i' | 'J' => 'j'
  | 'K' => 'k' | 'L' => 'l' | 'M' => 'm' | 'N' => 'n' | 'O' => 'o'
  | 'P' => 'p' | 'Q' => 'q' | 'R' => 'r' | 'S' => 's' | 'T' => 't'
  | 'U' => 'u' | 'V' => 'v' | 'W' => 'w' | 'X' => 'x' | 'Y' => 'y'
  | 'Z' => 'z'
  | c => c

/-- Python `name.lower()` on the `Name` model. -/
def lowerName (n : Name) : Name := n.map asciiLower

/-- Model of `re.match(r'^(.+)_v(\d+)$', name)` followed by `group(1)`:
strip a trailing `_v<digits>` version suffix (nonempty digits, nonempty
base), else return the name unchanged.  This is the stripping logic of
`matches_prefix` (src lines 70-71) and of the three inline copies in
`DpxVersioningCommandExecuteHandler.notify` (src lines 554-555, 602-603,
640-641). -/
def stripVersion (n : Name) : Name :=
  match n.reverse.takeWhile Char.isDigit, n.reverse.dropWhile Char.isDigit with
  | _ :: _, 'v' :: '_' :: c :: cs => (c :: cs).reverse
  | _, _ => n

/-- Whether the regex `^(.+)_v(\d+)$` matches the name, i.e. whether
`stripVersion` removes a suffix: a nonempty trailing digit run, preceded by
`v`, `_` and at least one further character. -/
def hasTag (n : Name) : Bool :=
  match n.reverse.takeWhile Char.isDigit, n.reverse.dropWhile Char.isDigit with
  | _ :: _, 'v' :: '_' :: _ :: _ => true
  | _, _ => false

/-- Modelled from the spec: "a name has a VersionTag suffix if and only if
it ends in `_v` followed by one or more decimal digits with nothing after".
Unlike `hasTag` (the code's condition) this places no requirement on what,
if anything, precedes the `_v`. -/
def endsVDigits (n : Name) : Bool :=
  match n.reverse.takeWhile Char.isDigit, n.reverse.dropWhile Char.isDigit with
  | _ :: _, 'v' :: '_' :: _ => true
  | _, _ => false

/-- Python `file_prefix.replace('_', '-')` (src lines 74, 560, 608, 644). -/
def dashVariant (fp : Name) : Name := fp.map (fun c => if c = '_' then '-' else c)

/-- The prefix test applied to an already version-stripped base name:
`base_name_lower.startswith(file_prefix) or
base_name_lower.startswith(prefix_with_dash)` (src line 75 and the inline
copies at lines 562, 610, 646). -/
def matchesStrippedBase (base fp : Name) : Bool :=
  fp.isPrefixOf (lowerName base) || (dashVariant fp).isPrefixOf (lowerName base)

/-- Model of `matches_prefix(name, file_prefix)` (src lines 55-75).  The
guard `if not name: return False` covers both Python `None` and the empty
string; the model folds both into the empty list. -/
def matchesPrefix (name fp : Name) : Bool :=
  if name = [] then false
  else matchesStrippedBase (stripVersion name) fp

/-- Model of the prefix derivation in `notify` (src lines 515-521):
`filename.split('_')[0].lower()[:3] + '_'` when the filename contains an
underscore, else `filename.lower()[:3] + '_'`. -/
def computePrefix (filename : Name) : Name :=
  if '_' ∈ filename then
    ((filename.takeWhile (fun c => c ≠ '_')).map asciiLower).take 3 ++ ['_']
  else (filename.map asciiLower).take 3 ++ ['_']

/-- Decimal digit string of a natural number (fuel-structured so it reduces
definitionally); models Python's f-string rendering of `nextVerNum`. -/
def decDigitsGo : Nat → Nat → List Char → List Char
  | 0, _, acc => acc
  | fuel + 1, n, acc =>
    if n < 10 then Nat.digitChar n :: acc
    else decDigitsGo fuel (n / 10) (Nat.digitChar (n % 10) :: acc)

/-- Decimal digits of `n`, most significant first. -/
def decDigits (n : Nat) : List Char := decDigitsGo (n + 1) n []

/-- Model of `new_name = f"{baseName}_v{nextVerNum}"` (src lines 567, 621,
655). -/
def nextName (base : Name) (v : Nat) : Name := base ++ '_' :: 'v' :: decDigits v

/-- Model of `nextVerNum = verNum + 1` (src line 511). -/
def nextVersion (verNum : Nat) : Nat := verNum + 1

/-- Modelled from the spec (§3 FilePrefix): "take the substring up to (but
not including) the first `_` if one exists, else the first 3 characters of
the whole name; lowercase it; append `_`". -/
def specFilePrefix (filename : Name) : Name :=
  if '_' ∈ filename then
    (filename.take (filename.findIdx (fun c => c = '_'))).map asciiLower ++ ['_']
  else (filename.take 3).map asciiLower ++ ['_']

/-- The amended FilePrefix rule: as `specFilePrefix`, but the head segment is
additionally truncated to its first 3 characters also in the underscore
branch. -/
def specFilePrefixTrunc (filename : Name) : Name :=
  if '_' ∈ filename then
    ((filename.take (filename.findIdx (fun c => c = '_'))).map asciiLower).take 3 ++ ['_']
  else ((filename.take 3).map asciiLower).take 3 ++ ['_']

/-! ### Data model: components, bodies, occurrences

`Comp` models a Fusion component definition, `Body` a BRep body (its
`bparent` is the id of its owning component, Fusion's
`body.parentComponent`), `Occ` an occurrence placement (its `ocompId` the
component it instantiates, `childToks` the tokens of its child
occurrences).  `Design.comps` models `design.allComponents` (the root
included), `Design.occs` models `rootComp.allOccurrences` flattened.
Fusion object identity is modelled by the `cid`/`btoken`/`otoken` numbers.
The `if not body` null-guards of the source cannot fire in the model (the
host hands out real objects); a body with an empty name follows the same
skip path as in the source. -/

structure Body where
  btoken : Nat
  bparent : Nat
  bname : Name
deriving DecidableEq

structure Comp where
  cid : Nat
  cname : Name
  bodies : List Body
deriving DecidableEq

structure Occ where
  otoken : Nat
  ocompId : Nat
  childToks : List Nat
deriving DecidableEq

structure Design where
  rootId : Nat
  comps : List Comp
  occs : List Occ
deriving DecidableEq

/-- The four counters of `notify`: `component_renamed_count`,
`component_skipped_count`, `renamed_count`, `skipped_count`. -/
structure Counts where
  compRenamed : Nat
  compSkipped : Nat
  bodyRenamed : Nat
  bodySkipped : Nat
deriving DecidableEq

def addCounts (x y : Counts) : Counts :=
  ⟨x.compRenamed + y.compRenamed, x.compSkipped + y.compSkipped,
   x.bodyRenamed + y.bodyRenamed, x.bodySkipped + y.bodySkipped⟩

/-! ### The rename pass (Retagger) -/

/-- The body loop of `notify` (src lines 592-630 and 635-664): skip bodies
with empty names silently, strip, test the prefix, rename matches.  Returns
the new body list and the increments to (`renamed_count`, `skipped_count`). -/
def retagBodies (fp : Name) (v : Nat) : List Body → List Body × Nat × Nat
  | [] => ([], 0, 0)
  | b :: bs =>
    let rest := retagBodies fp v bs
    if b.bname = [] then (b :: rest.1, rest.2.1, rest.2.2)
    else
      let base := stripVersion b.bname
      if matchesStrippedBase base fp then
        ({ b with bname := nextName base v } :: rest.1, rest.2.1 + 1, rest.2.2)
      else (b :: rest.1, rest.2.1, rest.2.2 + 1)

/-- One non-root component's step of the component loop (src lines 548-630):
rename the component if its name is nonempty and its base matches, then
process its bodies.  Host rename errors do not occur in the model. -/
def retagComp (fp : Name) (v : Nat) (c : Comp) : Comp × Counts :=
  let nm :=
    if c.cname = [] then (c.cname, 0, 0)
    else
      let base := stripVersion c.cname
      if matchesStrippedBase base fp then (nextName base v, 1, 0)
      else (c.cname, 0, 1)
  let rb := retagBodies fp v c.bodies
  ({ c with cname := nm.1, bodies := rb.1 }, ⟨nm.2.1, nm.2.2, rb.2.1, rb.2.2⟩)

/-- The loop over `design.allComponents` (src lines 542-630), skipping the
root component entirely (`continue` runs before the body loop). -/
def retagComps (rootId : Nat) (fp : Name) (v : Nat) : List Comp → List Comp × Counts
  | [] => ([], ⟨0, 0, 0, 0⟩)
  | c :: cs =>
    let rest := retagComps rootId fp v cs
    if c.cid = rootId then (c :: rest.1, rest.2)
    else
      let rc := retagComp fp v c
      (rc.1 :: rest.1, addCounts rc.2 rest.2)

/-- `design.rootComponent.bRepBodies`. -/
def rootBodies (d : Design) : List Body :=
  match d.comps.find? (fun c => c.cid == d.rootId) with
  | some c => c.bodies
  | none => []

/-- The full rename pass of `notify` (src lines 539-664): every non-root
component with its bodies, then the root component's bodies. -/
def retagDesign (fp : Name) (v : Nat) (d : Design) : Design × Counts :=
  let step1 := retagComps d.rootId fp v d.comps
  let rb := retagBodies fp v (rootBodies d)
  let comps2 := step1.1.map fun c =>
    if c.cid == d.rootId then { c with bodies := rb.1 } else c
  ({ d with comps := comps2 },
   ⟨step1.2.compRenamed, step1.2.compSkipped,
    step1.2.bodyRenamed + rb.2.1, step1.2.bodySkipped + rb.2.2⟩)

/-- Outcome of one run of the execute handler's core: retagged design,
counters, `total_renamed` (src line 667), and whether the comment prompt and
the save are reached (src lines 686-714: both sit under
`if total_renamed > 0`). -/
structure RunOutcome where
  design : Design
  counts : Counts
  totalRenamed : Nat
  promptedComment : Bool
  saved : Bool
deriving DecidableEq

/-- The execute handler `notify` (src lines 476-714) from the prefix
derivation through the save decision; preconditions hold and the host save
succeeds. -/
def versioningRun (d : Design) (filename : Name) (verNum : Nat) : RunOutcome :=
  let fp := computePrefix filename
  let v := nextVersion verNum
  let r := retagDesign fp v d
  let total := r.2.bodyRenamed + r.2.compRenamed
  ⟨r.1, r.2, total, decide (0 < total), decide (0 < total)⟩

/-! ### The export pass (`export_bodies`, src lines 78-324) -/

/-- An entry of `items_to_export`: a tagged component via one of its
occurrences (the component stored alongside, as `occ.component` resolves to
it), or a tagged body. -/
inductive XItem where
  | comp (occ : Occ) (c : Comp)
  | body (b : Body)
deriving DecidableEq

/-- The shared mutable `isLightBulbOn` state, by entity token. -/
def VisState := Nat → Bool

def setVis (s : VisState) (t : Nat) (b : Bool) : VisState :=
  fun x => if x = t then b else s x

def findComp (d : Design) (i : Nat) : Option Comp :=
  d.comps.find? (fun c => c.cid == i)

def findOcc (d : Design) (t : Nat) : Option Occ :=
  d.occs.find? (fun o => o.otoken == t)

/-- First pass (src lines 103-107): tagged non-root components, in
`allComponents` order. -/
def taggedComps (d : Design) (fp : Name) : List Comp :=
  d.comps.filter (fun c => c.cid != d.rootId && matchesPrefix c.cname fp)

/-- First pass (src lines 110-117): tagged bodies of non-root components in
traversal order, then tagged bodies of the root component. -/
def taggedBodies (d : Design) (fp : Name) : List Body :=
  ((d.comps.filter (fun c => c.cid != d.rootId)).flatMap
      (fun c => c.bodies.filter (fun b => matchesPrefix b.bname fp)))
    ++ (rootBodies d).filter (fun b => matchesPrefix b.bname fp)

/-- `parent_is_tagged` (src lines 140-141). -/
def parentIsTagged (d : Design) (fp : Name) (b : Body) : Bool :=
  (b.bparent != d.rootId) &&
    (match findComp d b.bparent with
     | some pc => matchesPrefix pc.cname fp
     | none => false)

/-- `items_to_export` (src lines 122-149): for each tagged component, one
entry per occurrence of it (src lines 126-135 append inside the occurrence
loop); then each tagged body whose parent component is not a tagged
non-root component. -/
def selectItems (d : Design) (fp : Name) : List XItem :=
  ((taggedComps d fp).flatMap
      (fun c => (d.occs.filter (fun o => o.ocompId == c.cid)).map
        (fun o => XItem.comp o c)))
    ++ ((taggedBodies d fp).filter (fun b => !parentIsTagged d fp b)).map XItem.body

def itemToken : XItem → Nat
  | XItem.comp o _ => o.otoken
  | XItem.body b => b.btoken

def itemName : XItem → Name
  | XItem.comp _ c => c.cname
  | XItem.body b => b.bname

/-- `original_visibility` (src lines 130, 144): the pre-call visibility of
each item's entity, captured in selection order. -/
def captureOv (d : Design) (fp : Name) (vis : VisState) : List (Nat × Bool) :=
  (selectItems d fp).map (fun it => (itemToken it, vis (itemToken it)))

/-- Arrange one body of an exported component (src lines 223-236): hide
tagged bodies, show untagged ones, recording each actual change. -/
def arrangeBody (fp : Name) (b : Body) (vis : VisState) :
    VisState × List (Nat × Bool) :=
  if matchesPrefix b.bname fp then
    if vis b.btoken then (setVis vis b.btoken false, [(b.btoken, true)])
    else (vis, [])
  else
    if vis b.btoken then (vis, [])
    else (setVis vis b.btoken true, [(b.btoken, false)])

def arrangeBodies (fp : Name) : List Body → VisState → VisState × List (Nat × Bool)
  | [], vis => (vis, [])
  | b :: bs, vis =>
    let s := arrangeBody fp b vis
    let rest := arrangeBodies fp bs s.1
    (rest.1, s.2 ++ rest.2)

/-- Arrange one child occurrence (src lines 239-251): hide tagged
sub-components, show untagged ones. -/
def arrangeChild (d : Design) (fp : Name) (t : Nat) (vis : VisState) :
    VisState × List (Nat × Bool) :=
  match findOcc d t with
  | none => (vis, [])
  | some co =>
    let tagged :=
      match findComp d co.ocompId with
      | some cc => matchesPrefix cc.cname fp
      | none => false
    if tagged then
      if vis co.otoken then (setVis vis co.otoken false, [(co.otoken, true)])
      else (vis, [])
    else
      if vis co.otoken then (vis, [])
      else (setVis vis co.otoken true, [(co.otoken, false)])

def arrangeChildren (d : Design) (fp : Name) :
    List Nat → VisState → VisState × List (Nat × Bool)
  | [], vis => (vis, [])
  | t :: ts, vis =>
    let s := arrangeChild d fp t vis
    let rest := arrangeChildren d fp ts s.1
    (rest.1, s.2 ++ rest.2)

/-- Undo recorded visibility changes (src lines 266-272), in recording
order. -/
def restoreChanges : List (Nat × Bool) → VisState → VisState
  | [], vis => vis
  | (t, b) :: rest, vis => restoreChanges rest (setVis vis t b)

/-- Process one export item (src lines 203-299).  `emitOk` is whether the
opaque `exportMgr.execute` call succeeds; when it throws, the per-item
`except` (line 298) catches it and the restoration code that follows the
call (lines 266-272 and 296) never runs for this item. -/
def execItem (d : Design) (fp : Name) (it : XItem) (emitOk : Bool)
    (vis : VisState) : VisState × Bool :=
  match it with
  | XItem.comp occ c =>
    let s0 : VisState × List (Nat × Bool) :=
      if vis occ.otoken then (vis, [])
      else (setVis vis occ.otoken true, [(occ.otoken, false)])
    let s1 := arrangeBodies fp c.bodies s0.1
    let s2 := arrangeChildren d fp occ.childToks s1.1
    if emitOk then (restoreChanges (s0.2 ++ s1.2 ++ s2.2) s2.1, true)
    else (s2.1, false)
  | XItem.body b =>
    let original := vis b.btoken
    let vis1 := if vis b.btoken then vis else setVis vis b.btoken true
    if emitOk then (setVis vis1 b.btoken original, true)
    else (vis1, false)

/-- The per-item loop (src lines 202-299), item indices feeding `emits`;
returns the visibility state, the `exported_count` and the failed item
names. -/
def runItems (d : Design) (fp : Name) (emits : Nat → Bool) :
    List XItem → Nat → VisState → VisState × Nat × List Name
  | [], _, vis => (vis, 0, [])
  | it :: rest, i, vis =>
    let s := execItem d fp it (emits i) vis
    let r := runItems d fp emits rest (i + 1) s.1
    (r.1, (if s.2 then 1 else 0) + r.2.1,
      (if s.2 then [] else [itemName it]) ++ r.2.2)

/-- The final restoration loop (src lines 301-310): only component items'
occurrence visibility is reset from the captured dictionary; body items are
skipped by the `if item['type'] == 'component'` guard. -/
def finalRestore (ov : List (Nat × Bool)) : List XItem → VisState → VisState
  | [], vis => vis
  | XItem.comp occ _ :: rest, vis =>
    finalRestore ov rest
      (match ov.lookup occ.otoken with
       | some b => setVis vis occ.otoken b
       | none => vis)
  | XItem.body _ :: rest, vis => finalRestore ov rest vis

/-- `export_bodies` from item selection through the final restoration; the
preview and folder dialogs are taken as confirmed. -/
def exportRun (d : Design) (fp : Name) (emits : Nat → Bool) (vis : VisState) :
    VisState × Nat × List Name :=
  let items := selectItems d fp
  let ov := captureOv d fp vis
  let r := runItems d fp emits items 0 vis
  (finalRestore ov items r.1, r.2.1, r.2.2)

/-! ### Concrete designs used by the claim theorems -/

/-- C6's end-to-end scenario: the three bodies live in the root component. -/
def c6Design : Design :=
  { rootId := 0,
    comps := [⟨0, str "root",
      [⟨1, 0, str "dpx_lever"⟩, ⟨2, 0, str "dpx_bracket_v2"⟩,
       ⟨3, 0, str "std_screw"⟩]⟩],
    occs := [] }

/-- C1's failing scenario: two tagged, initially hidden root bodies; the
first item's emit step throws. -/
def c1Design : Design :=
  { rootId := 0,
    comps := [⟨0, str "root", [⟨5, 0, str "dpx_aa"⟩, ⟨6, 0, str "dpx_bb"⟩]⟩],
    occs := [] }

def c1Vis : VisState := fun _ => false

/-- Emit outcomes for C1: item 0 throws, every later item succeeds. -/
def c1Emits : Nat → Bool := fun i => !(i == 0)

/-- C9's scenario: one tagged component placed by two occurrences. -/
def c9Design : Design :=
  { rootId := 0,
    comps := [⟨0, str "root", []⟩, ⟨1, str "dpx_part", []⟩],
    occs := [⟨10, 1, []⟩, ⟨11, 1, []⟩] }

/-- C8's witness design: a tagged body under the root, a tagged component
owning a tagged body, and an untagged component owning a tagged body. -/
def c8Design : Design :=
  { rootId := 0,
    comps := [⟨0, str "root", [⟨5, 0, str "dpx_rootbody"⟩]⟩,
      ⟨1, str "dpx_comp", [⟨6, 1, str "dpx_inner"⟩]⟩,
      ⟨2, str "plain", [⟨7, 2, str "dpx_loose"⟩]⟩],
    occs := [⟨10, 1, []⟩, ⟨11, 2, []⟩] }

/-- C10's witness design: nothing matches the `dpx_` prefix. -/
def c10Design : Design :=
  { rootId := 0,
    comps := [⟨0, str "root", [⟨1, 0, str "std_screw"⟩]⟩,
      ⟨1, str "other", [⟨2, 1, str "misc"⟩]⟩],
    occs := [] }

/-! ### List helpers -/

theorem takeWhileAll {α : Type} (p : α → Bool) (l₁ l₂ : List α)
    (h : ∀ a ∈ l₁, p a = true) :
    (l₁ ++ l₂).takeWhile p = l₁ ++ l₂.takeWhile p := by
  induction l₁ with
  | nil => simp
  | cons a l ih =>
    have ha : p a = true := h a (List.mem_cons_self a l)
    simp [List.takeWhile_cons_of_pos ha,
      ih fun x hx => h x (List.mem_cons_of_mem a hx)]

theorem dropWhileAll {α : Type} (p : α → Bool) (l₁ l₂ : List α)
    (h : ∀ a ∈ l₁, p a = true) :
    (l₁ ++ l₂).dropWhile p = l₂.dropWhile p := by
  induction l₁ with
  | nil => simp
  | cons a l ih =>
    have ha : p a = true := h a (List.mem_cons_self a l)
    simp [List.dropWhile_cons_of_pos ha,
      ih fun x hx => h x (List.mem_cons_of_mem a hx)]

theorem memTakeWhile {α : Type} (p : α → Bool) :
    ∀ (l : List α) (x : α), x ∈ l.takeWhile p → p x = true := by
  intro l
  induction l with
  | nil => simp
  | cons a t ih =>
    intro x hx
    rw [List.takeWhile_cons] at hx
    by_cases hpa : p a = true
    · rw [if_pos hpa] at hx
      rcases List.mem_cons.mp hx with rfl | hx
      · exact hpa
      · exact ih x hx
    · rw [if_neg hpa] at hx
      exact absurd hx (List.not_mem_nil x)

theorem revDecomp (b ds : Name) :
    (b ++ '_' :: 'v' :: ds).reverse = ds.reverse ++ 'v' :: '_' :: b.reverse := by
  simp

/-! ### stripVersion characterization -/

/-- The regex branch fires on a valid decomposition and returns the base. -/
theorem stripOfDecomp (b ds : Name) (hb : b ≠ []) (hds : ds ≠ [])
    (hdig : ∀ c ∈ ds, c.isDigit = true) :
    stripVersion (b ++ '_' :: 'v' :: ds) = b := by
  have hrev : ∀ c ∈ ds.reverse, c.isDigit = true :=
    fun c h => hdig c (List.mem_reverse.mp h)
  have hds' : ds.reverse ≠ [] := by simpa using hds
  have hb' : b.reverse ≠ [] := by simpa using hb
  obtain ⟨d, dt, hdt⟩ := List.exists_cons_of_ne_nil hds'
  obtain ⟨c, cs, hcs⟩ := List.exists_cons_of_ne_nil hb'
  have h1 : (b ++ '_' :: 'v' :: ds).reverse.takeWhile Char.isDigit = d :: dt := by
    rw [revDecomp, takeWhileAll Char.isDigit ds.reverse _ hrev,
      List.takeWhile_cons_of_neg (by decide : ¬ ('v'.isDigit = true)),
      List.append_nil, hdt]
  have h2 : (b ++ '_' :: 'v' :: ds).reverse.dropWhile Char.isDigit
      = 'v' :: '_' :: c :: cs := by
    rw [revDecomp, dropWhileAll Char.isDigit ds.reverse _ hrev,
      List.dropWhile_cons_of_neg (by decide : ¬ ('v'.isDigit = true)), hcs]
  unfold stripVersion
  rw [h1, h2]
  show (c :: cs).reverse = b
  rw [← hcs, List.reverse_reverse]

/-- The regex branch succeeds exactly on valid decompositions. -/
theorem hasTagIff (n : Name) :
    hasTag n = true ↔
      ∃ b ds, b ≠ [] ∧ ds ≠ [] ∧ (∀ c ∈ ds, c.isDigit = true)
        ∧ n = b ++ '_' :: 'v' :: ds := by
  constructor
  · intro h
    unfold hasTag at h
    split at h
    case _ d dt c cs heq1 heq2 =>
      refine ⟨(c :: cs).reverse, (d :: dt).reverse, by simp, by simp, ?_, ?_⟩
      · intro x hx
        have hx' : x ∈ d :: dt := List.mem_reverse.mp hx
        exact memTakeWhile Char.isDigit n.reverse x (by rw [heq1]; exact hx')
      · have hn : n.reverse = (d :: dt) ++ 'v' :: '_' :: c :: cs := by
          rw [← heq1, ← heq2, List.takeWhile_append_dropWhile]
        have hn2 : n = ((d :: dt) ++ 'v' :: '_' :: c :: cs).reverse := by
          rw [← hn, List.reverse_reverse]
        rw [hn2]
        simp
    case _ => exact absurd h (by simp)
  · rintro ⟨b, ds, hb, hds, hdig, rfl⟩
    have hrev : ∀ c ∈ ds.reverse, c.isDigit = true :=
      fun c h => hdig c (List.mem_reverse.mp h)
    have hds' : ds.reverse ≠ [] := by simpa using hds
    have hb' : b.reverse ≠ [] := by simpa using hb
    obtain ⟨d, dt, hdt⟩ := List.exists_cons_of_ne_nil hds'
    obtain ⟨c, cs, hcs⟩ := List.exists_cons_of_ne_nil hb'
    have h1 : (b ++ '_' :: 'v' :: ds).reverse.takeWhile Char.isDigit = d :: dt := by
      rw [revDecomp, takeWhileAll Char.isDigit ds.reverse _ hrev,
        List.takeWhile_cons_of_neg (by decide : ¬ ('v'.isDigit = true)),
        List.append_nil, hdt]
    have h2 : (b ++ '_' :: 'v' :: ds).reverse.dropWhile Char.isDigit
        = 'v' :: '_' :: c :: cs := by
      rw [revDecomp, dropWhileAll Char.isDigit ds.reverse _ hrev,
        List.dropWhile_cons_of_neg (by decide : ¬ ('v'.isDigit = true)), hcs]
    unfold hasTag
    rw [h1, h2]
    rfl

/-- When the regex does not match, the name is returned unchanged. -/
theorem stripEqSelfOfNotTag (n : Name) (h : hasTag n = false) :
    stripVersion n = n := by
  unfold stripVersion
  split
  case _ d dt c cs heq1 heq2 =>
    exfalso
    have ht : hasTag n = true := by
      unfold hasTag
      rw [heq1, heq2]
      rfl
    rw [ht] at h
    exact Bool.noConfusion h
  case _ => rfl

/-- When the regex matches, stripping strictly shortens the name, so a
matched name is never returned unchanged. -/
theorem stripNeOfTag (n : Name) (h : hasTag n = true) :
    stripVersion n ≠ n := by
  obtain ⟨b, ds, hb, hds, hdig, rfl⟩ := (hasTagIff n).mp h
  rw [stripOfDecomp b ds hb hds hdig]
  intro heq
  have hlen := congrArg List.length heq
  simp [List.length_append] at hlen

/-- The spec's suffix test holds exactly when the name ends in `_v` plus a
nonempty digit run, with anything (possibly nothing) before the `_v`. -/
theorem endsVDigitsIff (n : Name) :
    endsVDigits n = true ↔
      ∃ b ds, ds ≠ [] ∧ (∀ c ∈ ds, c.isDigit = true) ∧ n = b ++ '_' :: 'v' :: ds := by
  constructor
  · intro h
    unfold endsVDigits at h
    split at h
    case _ d dt rest heq1 heq2 =>
      refine ⟨rest.reverse, (d :: dt).reverse, by simp, ?_, ?_⟩
      · intro x hx
        have hx' : x ∈ d :: dt := List.mem_reverse.mp hx
        exact memTakeWhile Char.isDigit n.reverse x (by rw [heq1]; exact hx')
      · have hn : n.reverse = (d :: dt) ++ 'v' :: '_' :: rest := by
          rw [← heq1, ← heq2, List.takeWhile_append_dropWhile]
        have hn2 : n = ((d :: dt) ++ 'v' :: '_' :: rest).reverse := by
          rw [← hn, List.reverse_reverse]
        rw [hn2]
        simp
    case _ => exact absurd h (by simp)
  · rintro ⟨b, ds, hds, hdig, rfl⟩
    have hrev : ∀ c ∈ ds.reverse, c.isDigit = true :=
      fun c h => hdig c (List.mem_reverse.mp h)
    have hds' : ds.reverse ≠ [] := by simpa using hds
    obtain ⟨d, dt, hdt⟩ := List.exists_cons_of_ne_nil hds'
    have h1 : (b ++ '_' :: 'v' :: ds).reverse.takeWhile Char.isDigit = d :: dt := by
      rw [revDecomp, takeWhileAll Char.isDigit ds.reverse _ hrev,
        List.takeWhile_cons_of_neg (by decide : ¬ ('v'.isDigit = true)),
        List.append_nil, hdt]
    have h2 : (b ++ '_' :: 'v' :: ds).reverse.dropWhile Char.isDigit
        = 'v' :: '_' :: b.reverse := by
      rw [revDecomp, dropWhileAll Char.isDigit ds.reverse _ hrev,
        List.dropWhile_cons_of_neg (by decide : ¬ ('v'.isDigit = true))]
    unfold endsVDigits
    rw [h1, h2]
    rfl

/-! ### Decimal digit strings -/

theorem digitCharIsDigit (n : Nat) (h : n < 10) : (Nat.digitChar n).isDigit = true := by
  interval_cases n <;> decide

theorem decDigitsGoAll (fuel : Nat) : ∀ (n : Nat) (acc : List Char),
    (∀ c ∈ acc, c.isDigit = true) → ∀ c ∈ decDigitsGo fuel n acc, c.isDigit = true := by
  induction fuel with
  | zero =>
    intro n acc hacc c hc
    exact hacc c (by simpa [decDigitsGo] using hc)
  | succ fuel ih =>
    intro n acc hacc c hc
    simp only [decDigitsGo] at hc
    by_cases h10 : n < 10
    · rw [if_pos h10] at hc
      rcases List.mem_cons.mp hc with rfl | hc
      · exact digitCharIsDigit n h10
      · exact hacc c hc
    · rw [if_neg h10] at hc
      refine ih (n / 10) _ ?_ c hc
      intro x hx
      rcases List.mem_cons.mp hx with rfl | hx
      · exact digitCharIsDigit _ (Nat.mod_lt n (by norm_num))
      · exact hacc x hx

theorem decDigitsGoLen (fuel : Nat) : ∀ (n : Nat) (acc : List Char),
    acc.length ≤ (decDigitsGo fuel n acc).length := by
  induction fuel with
  | zero => intro n acc; simp [decDigitsGo]
  | succ fuel ih =>
    intro n acc
    simp only [decDigitsGo]
    by_cases h10 : n < 10
    · rw [if_pos h10]; simp
    · rw [if_neg h10]
      calc acc.length ≤ (Nat.digitChar (n % 10) :: acc).length := by simp
        _ ≤ _ := ih (n / 10) _

theorem decDigitsNeNil (v : Nat) : decDigits v ≠ [] := by
  unfold decDigits
  simp only [decDigitsGo]
  by_cases h10 : v < 10
  · rw [if_pos h10]; simp
  · rw [if_neg h10]
    intro h
    have hl := decDigitsGoLen v (v / 10) [Nat.digitChar (v % 10)]
    rw [h] at hl
    simp at hl

theorem decDigitsAll (v : Nat) : ∀ c ∈ decDigits v, c.isDigit = true :=
  decDigitsGoAll (v + 1) v [] (by simp)

/-! ### ASCII lowercasing -/

theorem asciiLowerFixOfLower :
    ∀ d ∈ str "abcdefghijklmnopqrstuvwxyz", asciiLower d = d := by decide

theorem asciiLowerCases (c : Char) :
    asciiLower c = c ∨ asciiLower c ∈ str "abcdefghijklmnopqrstuvwxyz" := by
  unfold asciiLower
  split
  <;> first
    | exact Or.inl rfl
    | exact Or.inr (by decide)

theorem asciiLowerIdem (c : Char) : asciiLower (asciiLower c) = asciiLower c := by
  rcases asciiLowerCases c with h | h
  · rw [h]
    exact h
  · exact asciiLowerFixOfLower _ h

theorem lowerNameIdem (m : Name) : lowerName (lowerName m) = lowerName m := by
  unfold lowerName
  rw [List.map_map]
  exact List.map_congr_left fun c _ => asciiLowerIdem c

theorem takeWhileNeEqTakeFindIdx (l : List Char) :
    l.takeWhile (fun c => c ≠ '_') = l.take (l.findIdx (fun c => c = '_')) := by
  induction l with
  | nil => simp
  | cons a t ih =>
    by_cases ha : a = '_'
    · subst ha
      simp [List.takeWhile_cons, List.findIdx_cons]
    · simp only [ne_eq, decide_not] at ih ⊢
      simp [List.takeWhile_cons, List.findIdx_cons, ha, ih]

/-! ### Claim theorems -/

/-- C2, counterexample: `stripVersion` is not idempotent.  `a_v1_v2` strips
to `a_v1` (the trailing `_v2` goes), and stripping again removes the now
trailing `_v1`, giving `a`. -/
theorem c2Counterexample :
    stripVersion (stripVersion (str "a_v1_v2")) ≠ stripVersion (str "a_v1_v2") := by
  decide

/-- C2, amended: stripping is idempotent at a name N exactly when the
stripped result does not itself end in `_v<digits>` preceded by at least one
character — equivalently, N does not carry two stacked version suffixes. -/
theorem c2StripIdemIff (n : Name) :
    stripVersion (stripVersion n) = stripVersion n ↔
      ¬ ∃ b ds, b ≠ [] ∧ ds ≠ [] ∧ (∀ c ∈ ds, c.isDigit = true)
        ∧ stripVersion n = b ++ '_' :: 'v' :: ds := by
  rw [← hasTagIff (stripVersion n)]
  constructor
  · intro h ht
    exact stripNeOfTag _ ht h
  · intro h
    exact stripEqSelfOfNotTag _ (by simpa using h)

/-- C3, counterexample: the empty base name has no trailing `_v<digits>`
suffix and `nextName "" 0 = "_v0"`, yet `stripVersion "_v0" = "_v0" ≠ ""`
because the regex requires at least one character before the `_v`. -/
theorem c3Counterexample :
    endsVDigits ([] : Name) = false
      ∧ nextName ([] : Name) 0 = str "_v0"
      ∧ stripVersion (nextName ([] : Name) 0) ≠ ([] : Name) := by
  decide

/-- C3, amended: for every nonempty base name B with no trailing
`_v<digits>` suffix and every version V ≥ 0,
`stripVersion (nextName B V) = B`. -/
theorem c3StripNextName (b : Name) (v : Nat) (hb : b ≠ [])
    (_hsuf : endsVDigits b = false) :
    stripVersion (nextName b v) = b :=
  stripOfDecomp b (decDigits v) hb (decDigitsNeNil v) (decDigitsAll v)

/-- C3, witness at B = `dpx_lever`, V = 4. -/
theorem c3Witness :
    (str "dpx_lever" ≠ ([] : Name))
      ∧ endsVDigits (str "dpx_lever") = false
      ∧ stripVersion (nextName (str "dpx_lever") 4) = str "dpx_lever" :=
  ⟨by decide, by decide, c3StripNextName (str "dpx_lever") 4 (by decide) (by decide)⟩

/-- C4, counterexample: for document name `abcd_x` the code truncates the
pre-underscore head to 3 characters (`abc_`), while the claimed rule keeps
the whole head (`abcd_`). -/
theorem c4Counterexample :
    computePrefix (str "abcd_x") = str "abc_"
      ∧ specFilePrefix (str "abcd_x") = str "abcd_"
      ∧ computePrefix (str "abcd_x") ≠ specFilePrefix (str "abcd_x") := by
  decide

/-- C4, amended: the prefix is the first 3 characters of the lowercased
segment before the first `_` (of the whole lowercased name when no `_`
occurs), with `_` appended; the claim's two examples hold. -/
theorem c4PrefixRule :
    (∀ f : Name, computePrefix f = specFilePrefixTrunc f)
      ∧ computePrefix (str "dpx_widget.f3d") = str "dpx_"
      ∧ computePrefix (str "abcdef") = str "abc_" := by
  refine ⟨fun f => ?_, by decide, by decide⟩
  unfold computePrefix specFilePrefixTrunc
  by_cases h : '_' ∈ f
  · rw [if_pos h, if_pos h, takeWhileNeEqTakeFindIdx, List.map_take]
  · rw [if_neg h, if_neg h]
    simp [List.map_take, List.take_take]

/-- C5, counterexample: `_v5` ends in `_v` followed by digits with nothing
after, so per the claim its suffix is removed and the base `""` remains; the
code instead returns `_v5` unchanged, because the regex `^(.+)_v(\d+)$`
demands at least one character before the suffix. -/
theorem c5Counterexample :
    endsVDigits (str "_v5") = true
      ∧ stripVersion (str "_v5") = str "_v5"
      ∧ str "_v5" ≠ ([] : Name) := by
  decide

/-- C5, amended: `stripVersion` removes a suffix exactly on names of the
form `base ++ "_v" ++ digits` with base nonempty and digits a nonempty run
of decimal digits, returning the base; every other name — `dpx_vertical_mount`
among them — is returned unchanged. -/
theorem c5StripCharacterization (n : Name) :
    (∀ b ds, b ≠ [] → ds ≠ [] → (∀ c ∈ ds, c.isDigit = true) →
        n = b ++ '_' :: 'v' :: ds → stripVersion n = b)
      ∧ ((¬ ∃ b ds, b ≠ [] ∧ ds ≠ [] ∧ (∀ c ∈ ds, c.isDigit = true)
          ∧ n = b ++ '_' :: 'v' :: ds) → stripVersion n = n)
      ∧ stripVersion (str "dpx_vertical_mount") = str "dpx_vertical_mount" := by
  refine ⟨?_, ?_, by decide⟩
  · rintro b ds hb hds hdig rfl
    exact stripOfDecomp b ds hb hds hdig
  · intro h
    refine stripEqSelfOfNotTag n ?_
    cases hht : hasTag n with
    | false => rfl
    | true => exact absurd ((hasTagIff n).mp hht) h

/-- C5, witness: the characterization strips `dpx_mount_v3` to `dpx_mount`. -/
theorem c5Witness : stripVersion (str "dpx_mount_v3") = str "dpx_mount" :=
  (c5StripCharacterization (str "dpx_mount_v3")).1 (str "dpx_mount") ['3']
    (by decide) (by decide) (by decide) (by decide)

/-- C6: document `dpx_widget.f3d` at save-version 3 gives
`nextVersion = 4`; the bodies `dpx_lever`, `dpx_bracket_v2`, `std_screw`
become `dpx_lever_v4`, `dpx_bracket_v4` and `std_screw` unchanged, with 2
bodies renamed and 1 skipped (and no component touched). -/
theorem c6EndToEnd :
    nextVersion 3 = 4
      ∧ (versioningRun c6Design (str "dpx_widget.f3d") 3).counts = ⟨0, 0, 2, 1⟩
      ∧ ((versioningRun c6Design (str "dpx_widget.f3d") 3).design.comps.map
          (fun c => c.bodies.map (fun b => b.bname)))
        = [[str "dpx_lever_v4", str "dpx_bracket_v4", str "std_screw"]] := by
  decide

/-- C7, counterexample: the match test is not case-insensitive in the name.
`ABC_V2` and `abc_v2` agree after lowercasing, yet against prefix `abc_` the
former matches (its upper-case `_V2` is not stripped, so the comparison sees
`abc_v2`) while the latter does not (stripping leaves `abc`, shorter than
the prefix). -/
theorem c7Counterexample :
    lowerName (str "ABC_V2") = lowerName (str "abc_v2")
      ∧ matchesPrefix (str "ABC_V2") (str "abc_") = true
      ∧ matchesPrefix (str "abc_v2") (str "abc_") = false := by
  decide

/-- C7, amended: an empty (or null) name never matches; a nonempty name
matches exactly when its version-stripped base, lowercased, starts with the
prefix or its dash variant; and the test is insensitive to the name's case
whenever lowercasing commutes with version-stripping on that name (the
stripping step itself is case-sensitive in `_v`, which is the only source of
case sensitivity). -/
theorem c7MatchesRule :
    (∀ fp : Name, matchesPrefix [] fp = false)
      ∧ (∀ (n fp : Name), n ≠ [] →
          matchesPrefix n fp =
            (fp.isPrefixOf (lowerName (stripVersion n))
              || (dashVariant fp).isPrefixOf (lowerName (stripVersion n))))
      ∧ (∀ (n fp : Name), stripVersion (lowerName n) = lowerName (stripVersion n) →
          matchesPrefix (lowerName n) fp = matchesPrefix n fp) := by
  refine ⟨fun fp => rfl, fun n fp hn => ?_, fun n fp hcomm => ?_⟩
  · unfold matchesPrefix matchesStrippedBase
    rw [if_neg hn]
  · by_cases hn : n = []
    · subst hn; rfl
    · have hln : lowerName n ≠ [] := by
        simpa [lowerName] using hn
      unfold matchesPrefix
      rw [if_neg hn, if_neg hln, hcomm]
      unfold matchesStrippedBase
      rw [lowerNameIdem]

/-- C7, witness for the amended rule at `DPX_Lever_v2` against `dpx_`. -/
theorem c7Witness :
    (str "DPX_Lever_v2" ≠ ([] : Name))
      ∧ matchesPrefix (str "DPX_Lever_v2") (str "dpx_")
          = ((str "dpx_").isPrefixOf (lowerName (stripVersion (str "DPX_Lever_v2")))
            || (dashVariant (str "dpx_")).isPrefixOf
                (lowerName (stripVersion (str "DPX_Lever_v2")))) :=
  ⟨by decide, (c7MatchesRule.2.1) (str "DPX_Lever_v2") (str "dpx_") (by decide)⟩

/-- C1 (code bug): with two tagged, initially hidden root bodies where item
0's emit step throws and item 1's succeeds, `export_bodies` still exports
item 1 and reports item 0 failed, but leaves body 5 visible: the final
restoration loop only resets component occurrences, so the failing body's
captured visibility is never restored, contradicting total restoration. -/
theorem c1VisibilityNotRestored :
    c1Vis 5 = false
      ∧ (exportRun c1Design (str "dpx_") c1Emits c1Vis).1 5 = true
      ∧ (exportRun c1Design (str "dpx_") c1Emits c1Vis).1 6 = false
      ∧ (exportRun c1Design (str "dpx_") c1Emits c1Vis).2.1 = 1
      ∧ (exportRun c1Design (str "dpx_") c1Emits c1Vis).2.2 = [str "dpx_aa"] := by
  decide

/-! ### Helpers for C10: nothing matches, nothing renamed -/

theorem retagBodiesNoMatch (fp : Name) (v : Nat) (bs : List Body)
    (h : ∀ b ∈ bs, matchesPrefix b.bname fp = false) :
    (retagBodies fp v bs).2.1 = 0 := by
  induction bs with
  | nil => rfl
  | cons b t ih =>
    have hb := h b (List.mem_cons_self b t)
    have ht := ih fun x hx => h x (List.mem_cons_of_mem b hx)
    simp only [retagBodies]
    by_cases he : b.bname = []
    · rw [if_pos he]
      exact ht
    · rw [if_neg he]
      have hm : matchesStrippedBase (stripVersion b.bname) fp = false := by
        unfold matchesPrefix at hb
        rwa [if_neg he] at hb
      rw [hm]
      simpa using ht

theorem retagCompNoMatch (fp : Name) (v : Nat) (c : Comp)
    (hc : matchesPrefix c.cname fp = false)
    (hb : ∀ b ∈ c.bodies, matchesPrefix b.bname fp = false) :
    (retagComp fp v c).2.compRenamed = 0 ∧ (retagComp fp v c).2.bodyRenamed = 0 := by
  have hbs := retagBodiesNoMatch fp v c.bodies hb
  simp only [retagComp]
  by_cases he : c.cname = []
  · rw [if_pos he]
    exact ⟨rfl, hbs⟩
  · rw [if_neg he]
    have hm : matchesStrippedBase (stripVersion c.cname) fp = false := by
      unfold matchesPrefix at hc
      rwa [if_neg he] at hc
    rw [hm]
    exact ⟨rfl, hbs⟩

theorem retagCompsNoMatch (rootId : Nat) (fp : Name) (v : Nat) (cs : List Comp)
    (hc : ∀ c ∈ cs, matchesPrefix c.cname fp = false)
    (hb : ∀ c ∈ cs, ∀ b ∈ c.bodies, matchesPrefix b.bname fp = false) :
    (retagComps rootId fp v cs).2.compRenamed = 0
      ∧ (retagComps rootId fp v cs).2.bodyRenamed = 0 := by
  induction cs with
  | nil => exact ⟨rfl, rfl⟩
  | cons c t ih =>
    have hcc := hc c (List.mem_cons_self c t)
    have hcb := hb c (List.mem_cons_self c t)
    have ht := ih (fun x hx => hc x (List.mem_cons_of_mem c hx))
      (fun x hx => hb x (List.mem_cons_of_mem c hx))
    simp only [retagComps]
    by_cases hr : c.cid = rootId
    · rw [if_pos hr]
      exact ht
    · rw [if_neg hr]
      have hcount := retagCompNoMatch fp v c hcc hcb
      constructor
      · show (addCounts (retagComp fp v c).2 (retagComps rootId fp v t).2).compRenamed = 0
        unfold addCounts
        rw [show (⟨_, _, _, _⟩ : Counts).compRenamed
            = (retagComp fp v c).2.compRenamed + (retagComps rootId fp v t).2.compRenamed from rfl,
          hcount.1, ht.1]
      · show (addCounts (retagComp fp v c).2 (retagComps rootId fp v t).2).bodyRenamed = 0
        unfold addCounts
        rw [show (⟨_, _, _, _⟩ : Counts).bodyRenamed
            = (retagComp fp v c).2.bodyRenamed + (retagComps rootId fp v t).2.bodyRenamed from rfl,
          hcount.2, ht.2]

/-- C10: the save and the version-comment prompt run exactly when
`total_renamed > 0`; in particular, when no component or body name matches
the derived prefix, nothing is renamed, no comment is requested and the
document is not saved. -/
theorem c10SaveOnlyWhenRenamed (d : Design) (filename : Name) (verNum : Nat) :
    ((versioningRun d filename verNum).saved = true
        ↔ 0 < (versioningRun d filename verNum).totalRenamed)
      ∧ (versioningRun d filename verNum).promptedComment
          = (versioningRun d filename verNum).saved
      ∧ ((∀ c ∈ d.comps, matchesPrefix c.cname (computePrefix filename) = false) →
          (∀ c ∈ d.comps, ∀ b ∈ c.bodies,
              matchesPrefix b.bname (computePrefix filename) = false) →
          (versioningRun d filename verNum).counts.compRenamed = 0
            ∧ (versioningRun d filename verNum).counts.bodyRenamed = 0
            ∧ (versioningRun d filename verNum).saved = false
            ∧ (versioningRun d filename verNum).promptedComment = false) := by
  refine ⟨decide_eq_true_iff, rfl, fun hc hb => ?_⟩
  have h1 := retagCompsNoMatch d.rootId (computePrefix filename)
    (nextVersion verNum) d.comps hc hb
  have hroot : ∀ b ∈ rootBodies d,
      matchesPrefix b.bname (computePrefix filename) = false := by
    intro b hbmem
    unfold rootBodies at hbmem
    cases hfind : d.comps.find? (fun c => c.cid == d.rootId) with
    | none => rw [hfind] at hbmem; exact absurd hbmem (List.not_mem_nil b)
    | some c =>
      rw [hfind] at hbmem
      exact hb c (List.mem_of_find?_eq_some hfind) b hbmem
  have h2 := retagBodiesNoMatch (computePrefix filename)
    (nextVersion verNum) (rootBodies d) hroot
  have e1 : (versioningRun d filename verNum).counts.compRenamed
      = (retagComps d.rootId (computePrefix filename)
          (nextVersion verNum) d.comps).2.compRenamed := rfl
  have e2 : (versioningRun d filename verNum).counts.bodyRenamed
      = (retagComps d.rootId (computePrefix filename)
            (nextVersion verNum) d.comps).2.bodyRenamed
        + (retagBodies (computePrefix filename)
            (nextVersion verNum) (rootBodies d)).2.1 := rfl
  have e3 : (versioningRun d filename verNum).saved
      = decide (0 < (versioningRun d filename verNum).counts.bodyRenamed
          + (versioningRun d filename verNum).counts.compRenamed) := rfl
  have hcz : (versioningRun d filename verNum).counts.compRenamed = 0 := by
    rw [e1, h1.1]
  have hbz : (versioningRun d filename verNum).counts.bodyRenamed = 0 := by
    rw [e2, h1.2, h2]
  refine ⟨hcz, hbz, ?_, ?_⟩
  · rw [e3, hcz, hbz]
    rfl
  · show (versioningRun d filename verNum).saved = false
    rw [e3, hcz, hbz]
    rfl

/-- C10, witness: in a design whose names (`std_screw`, `other`, `misc`)
never match the `dpx_` prefix of `dpx_widget.f3d`, nothing is renamed and
the document is not saved. -/
theorem c10Witness :
    (∀ c ∈ c10Design.comps,
        matchesPrefix c.cname (computePrefix (str "dpx_widget.f3d")) = false)
      ∧ (∀ c ∈ c10Design.comps, ∀ b ∈ c.bodies,
          matchesPrefix b.bname (computePrefix (str "dpx_widget.f3d")) = false)
      ∧ (versioningRun c10Design (str "dpx_widget.f3d") 3).counts.compRenamed = 0
      ∧ (versioningRun c10Design (str "dpx_widget.f3d") 3).counts.bodyRenamed = 0
      ∧ (versioningRun c10Design (str "dpx_widget.f3d") 3).saved = false
      ∧ (versioningRun c10Design (str "dpx_widget.f3d") 3).promptedComment = false := by
  refine ⟨by decide, by decide, ?_⟩
  have h := (c10SaveOnlyWhenRenamed c10Design (str "dpx_widget.f3d") 3).2.2
    (by decide) (by decide)
  exact ⟨h.1, h.2.1, h.2.2.1, h.2.2.2⟩

/-! ### Helpers for C8/C9: export item selection -/

/-- `find?` by component id returns the component itself when the ids are
unique — the model of Fusion object identity for `occ.component == comp` and
`parent_comp != rootComp` comparisons. -/
theorem findCidNodup : ∀ (l : List Comp), (l.map (fun x => x.cid)).Nodup →
    ∀ c ∈ l, l.find? (fun x => x.cid == c.cid) = some c := by
  intro l
  induction l with
  | nil => intro _ c hc; exact absurd hc (List.not_mem_nil c)
  | cons a t ih =>
    intro h c hc
    rcases List.mem_cons.mp hc with rfl | hc
    · simp [List.find?]
    · rw [List.map_cons] at h
      have hnd := List.nodup_cons.mp h
      have hne : (a.cid == c.cid) = false := by
        refine beq_eq_false_iff_ne.mpr fun he => ?_
        exact hnd.1 (he ▸ List.mem_map_of_mem (fun x => x.cid) hc)
      rw [List.find?_cons, hne]
      exact ih hnd.2 c hc

theorem memTaggedComps (d : Design) (fp : Name) (c : Comp) :
    c ∈ taggedComps d fp ↔
      (c ∈ d.comps ∧ c.cid ≠ d.rootId ∧ matchesPrefix c.cname fp = true) := by
  simp [taggedComps, List.mem_filter, Bool.and_eq_true, bne_iff_ne, and_assoc]

theorem memCompItem (d : Design) (fp : Name) (o : Occ) (c : Comp) :
    XItem.comp o c ∈ selectItems d fp ↔
      (c ∈ taggedComps d fp ∧ o ∈ d.occs ∧ o.ocompId = c.cid) := by
  unfold selectItems
  rw [List.mem_append]
  constructor
  · rintro (hA | hB)
    · rcases List.mem_flatMap.mp hA with ⟨c', hc', hx⟩
      rcases List.mem_map.mp hx with ⟨o', ho', he⟩
      rw [XItem.comp.injEq] at he
      obtain ⟨rfl, rfl⟩ := he
      rcases List.mem_filter.mp ho' with ⟨hoin, hop⟩
      exact ⟨hc', hoin, by simpa using hop⟩
    · exfalso
      rcases List.mem_map.mp hB with ⟨b, _, he⟩
      exact XItem.noConfusion he
  · rintro ⟨hc, hoin, hoc⟩
    refine Or.inl (List.mem_flatMap.mpr ⟨c, hc, ?_⟩)
    exact List.mem_map.mpr ⟨o, List.mem_filter.mpr ⟨hoin, by simpa using hoc⟩, rfl⟩

theorem memBodyItem (d : Design) (fp : Name) (b : Body) :
    XItem.body b ∈ selectItems d fp ↔
      (b ∈ taggedBodies d fp ∧ parentIsTagged d fp b = false) := by
  unfold selectItems
  rw [List.mem_append]
  constructor
  · rintro (hA | hB)
    · exfalso
      rcases List.mem_flatMap.mp hA with ⟨c', _, hx⟩
      rcases List.mem_map.mp hx with ⟨o', _, he⟩
      exact XItem.noConfusion he
    · rcases List.mem_map.mp hB with ⟨b', hb', he⟩
      rw [XItem.body.injEq] at he
      subst he
      rcases List.mem_filter.mp hb' with ⟨hin, hp⟩
      exact ⟨hin, by simpa using hp⟩
  · rintro ⟨hin, hpt⟩
    exact Or.inr (List.mem_map.mpr ⟨b, List.mem_filter.mpr ⟨hin, by simp [hpt]⟩, rfl⟩)

theorem memTaggedBodies (d : Design) (fp : Name) (c : Comp) (b : Body)
    (h3 : (d.comps.map (fun x => x.cid)).Nodup)
    (hc : c ∈ d.comps) (hb : b ∈ c.bodies) :
    b ∈ taggedBodies d fp ↔ matchesPrefix b.bname fp = true := by
  constructor
  · intro h
    unfold taggedBodies at h
    rcases List.mem_append.mp h with hA | hB
    · rcases List.mem_flatMap.mp hA with ⟨c', _, hbc⟩
      exact (List.mem_filter.mp hbc).2
    · exact (List.mem_filter.mp hB).2
  · intro hm
    unfold taggedBodies
    by_cases hroot : c.cid = d.rootId
    · refine List.mem_append.mpr (Or.inr ?_)
      have hf : d.comps.find? (fun x => x.cid == d.rootId) = some c := by
        rw [← hroot]
        exact findCidNodup d.comps h3 c hc
      unfold rootBodies
      rw [hf]
      exact List.mem_filter.mpr ⟨hb, hm⟩
    · refine List.mem_append.mpr (Or.inl ?_)
      refine List.mem_flatMap.mpr
        ⟨c, List.mem_filter.mpr ⟨hc, by simpa [bne_iff_ne] using hroot⟩,
          List.mem_filter.mpr ⟨hb, hm⟩⟩

theorem parentTaggedFalseIff (d : Design) (fp : Name) (c : Comp) (b : Body)
    (h3 : (d.comps.map (fun x => x.cid)).Nodup)
    (hc : c ∈ d.comps) (hpb : b.bparent = c.cid) :
    parentIsTagged d fp b = false ↔
      ¬(c.cid ≠ d.rootId ∧ matchesPrefix c.cname fp = true) := by
  have he : parentIsTagged d fp b
      = ((c.cid != d.rootId) && matchesPrefix c.cname fp) := by
    unfold parentIsTagged findComp
    rw [hpb, findCidNodup d.comps h3 c hc]
  rw [he]
  simp [bne_iff_ne]

/-- C8: a node appears in `items_to_export` exactly when it matches the
prefix, is not the root, and — for a body — its owning component is not
itself a tagged non-root component.  The hypotheses are the host's design
invariants: every non-root component has at least one occurrence, a body's
`parentComponent` is the component that lists it, and component ids (object
identities) are distinct. -/
theorem c8ExportRootRule (d : Design) (fp : Name)
    (h1 : ∀ c ∈ d.comps, c.cid ≠ d.rootId → ∃ o ∈ d.occs, o.ocompId = c.cid)
    (h2 : ∀ c ∈ d.comps, ∀ b ∈ c.bodies, b.bparent = c.cid)
    (h3 : (d.comps.map (fun x => x.cid)).Nodup) :
    (∀ c ∈ d.comps,
        ((∃ o, XItem.comp o c ∈ selectItems d fp)
          ↔ (matchesPrefix c.cname fp = true ∧ c.cid ≠ d.rootId)))
      ∧ (∀ c ∈ d.comps, ∀ b ∈ c.bodies,
          (XItem.body b ∈ selectItems d fp
            ↔ (matchesPrefix b.bname fp = true
              ∧ ¬(c.cid ≠ d.rootId ∧ matchesPrefix c.cname fp = true)))) := by
  constructor
  · intro c hc
    constructor
    · rintro ⟨o, ho⟩
      have h := (memCompItem d fp o c).mp ho
      have ht := (memTaggedComps d fp c).mp h.1
      exact ⟨ht.2.2, ht.2.1⟩
    · rintro ⟨hm, hnr⟩
      obtain ⟨o, ho, hoc⟩ := h1 c hc hnr
      exact ⟨o, (memCompItem d fp o c).mpr
        ⟨(memTaggedComps d fp c).mpr ⟨hc, hnr, hm⟩, ho, hoc⟩⟩
  · intro c hc b hb
    rw [memBodyItem, memTaggedBodies d fp c b h3 hc hb,
      parentTaggedFalseIff d fp c b h3 hc (h2 c hc b hb)]

/-- C8, witness: in `c8Design` the tagged component is selected, the tagged
body inside it is not, and the tagged bodies under the root and under the
untagged component are. -/
theorem c8Witness :
    ((∀ c ∈ c8Design.comps, c.cid ≠ c8Design.rootId →
          ∃ o ∈ c8Design.occs, o.ocompId = c.cid)
        ∧ (∀ c ∈ c8Design.comps, ∀ b ∈ c.bodies, b.bparent = c.cid)
        ∧ (c8Design.comps.map (fun x => x.cid)).Nodup)
      ∧ ((∀ c ∈ c8Design.comps,
            ((∃ o, XItem.comp o c ∈ selectItems c8Design (str "dpx_"))
              ↔ (matchesPrefix c.cname (str "dpx_") = true
                ∧ c.cid ≠ c8Design.rootId)))
          ∧ (∀ c ∈ c8Design.comps, ∀ b ∈ c.bodies,
              (XItem.body b ∈ selectItems c8Design (str "dpx_")
                ↔ (matchesPrefix b.bname (str "dpx_") = true
                  ∧ ¬(c.cid ≠ c8Design.rootId
                    ∧ matchesPrefix c.cname (str "dpx_") = true))))) :=
  ⟨⟨by decide, by decide, by decide⟩,
    c8ExportRootRule c8Design (str "dpx_") (by decide) (by decide) (by decide)⟩

theorem countPFlatMapZero {α β : Type} (p : β → Bool) (f : α → List β) :
    ∀ (l : List α), (∀ x ∈ l, (f x).countP p = 0) → (l.flatMap f).countP p = 0 := by
  intro l
  induction l with
  | nil => simp
  | cons a t ih =>
    intro h
    rw [List.flatMap_cons, List.countP_append, h a (List.mem_cons_self a t),
      ih fun x hx => h x (List.mem_cons_of_mem a hx)]

theorem countPFlatMapSingle {α β : Type} (p : β → Bool) (f : α → List β) (c : α) :
    ∀ (l : List α), l.Nodup → c ∈ l →
      (∀ x ∈ l, x ≠ c → (f x).countP p = 0) →
      (l.flatMap f).countP p = (f c).countP p := by
  intro l
  induction l with
  | nil => intro _ hc _; exact absurd hc (List.not_mem_nil c)
  | cons a t ih =>
    intro hnd hc hzero
    rw [List.flatMap_cons, List.countP_append]
    rcases List.mem_cons.mp hc with rfl | hct
    · have hz : (t.flatMap f).countP p = 0 := by
        refine countPFlatMapZero p f t fun x hx => ?_
        refine hzero x (List.mem_cons_of_mem _ hx) fun he => ?_
        subst he
        exact (List.nodup_cons.mp hnd).1 hx
      rw [hz]
      simp
    · have ha : (f a).countP p = 0 :=
        hzero a (List.mem_cons_self a t)
          (fun he => by subst he; exact (List.nodup_cons.mp hnd).1 hct)
      rw [ha, ih (List.nodup_cons.mp hnd).2 hct
        fun x hx hxc => hzero x (List.mem_cons_of_mem a hx) hxc]
      simp

/-- C9, counterexample: in `c9Design` the tagged component (id 1) is placed
by two occurrences, and `items_to_export` holds two entries for that one
node — the export list is not de-duplicated by node identity. -/
theorem c9Counterexample :
    ((selectItems c9Design (str "dpx_")).countP
        (fun it => match it with
          | XItem.comp _ c => decide (c.cid = 1)
          | XItem.body _ => false)) = 2 := by
  decide

/-- C9, amended: the export list keeps its stable insertion order (component
entries first, body entries after), but a tagged non-root component
contributes one entry per occurrence of it — the same node reached via
several occurrence placements is not collapsed to a single entry.  With
distinct component ids, the number of entries for a tagged component equals
its number of occurrences. -/
theorem c9PerOccurrence (d : Design) (fp : Name) (c : Comp)
    (hnd : (d.comps.map (fun x => x.cid)).Nodup)
    (hc : c ∈ d.comps) (hroot : c.cid ≠ d.rootId)
    (hm : matchesPrefix c.cname fp = true) :
    (selectItems d fp).countP
        (fun it => match it with
          | XItem.comp _ c' => decide (c' = c)
          | XItem.body _ => false)
      = d.occs.countP (fun o => o.ocompId == c.cid) := by
  unfold selectItems
  rw [List.countP_append]
  have hB : (((taggedBodies d fp).filter
        (fun b => !parentIsTagged d fp b)).map XItem.body).countP
        (fun it => match it with
          | XItem.comp _ c' => decide (c' = c)
          | XItem.body _ => false) = 0 := by
    rw [List.countP_eq_zero]
    intro a ha
    rcases List.mem_map.mp ha with ⟨b, _, rfl⟩
    simp
  have hcomps : d.comps.Nodup := List.Nodup.of_map _ hnd
  have htnd : (taggedComps d fp).Nodup := hcomps.filter _
  have hct : c ∈ taggedComps d fp := (memTaggedComps d fp c).mpr ⟨hc, hroot, hm⟩
  have hA := countPFlatMapSingle
    (fun it => match it with
      | XItem.comp _ c' => decide (c' = c)
      | XItem.body _ => false)
    (fun c' => (d.occs.filter (fun o => o.ocompId == c'.cid)).map
      (fun o => XItem.comp o c'))
    c (taggedComps d fp) htnd hct ?_
  · rw [hB, hA]
    have hall : ((d.occs.filter (fun o => o.ocompId == c.cid)).map
          (fun o => XItem.comp o c)).countP
          (fun it => match it with
            | XItem.comp _ c' => decide (c' = c)
            | XItem.body _ => false)
        = ((d.occs.filter (fun o => o.ocompId == c.cid)).map
            (fun o => XItem.comp o c)).length := by
      rw [List.countP_eq_length]
      intro a ha
      rcases List.mem_map.mp ha with ⟨o, _, rfl⟩
      simp
    rw [hall, List.length_map, ← List.countP_eq_length_filter]
    simp
  · intro x hx hxc
    rw [List.countP_eq_zero]
    intro a ha
    rcases List.mem_map.mp ha with ⟨o, _, rfl⟩
    simp [hxc]

/-- C9, witness for the amended rule: the tagged component of `c9Design` has
two occurrences and two export entries. -/
theorem c9Witness :
    ((c9Design.comps.map (fun x => x.cid)).Nodup
        ∧ (⟨1, str "dpx_part", []⟩ : Comp) ∈ c9Design.comps
        ∧ (1 : Nat) ≠ c9Design.rootId
        ∧ matchesPrefix (str "dpx_part") (str "dpx_") = true)
      ∧ (selectItems c9Design (str "dpx_")).countP
          (fun it => match it with
            | XItem.comp _ c' => decide (c' = (⟨1, str "dpx_part", []⟩ : Comp))
            | XItem.body _ => false)
        = c9Design.occs.countP (fun o => o.ocompId == 1) :=
  ⟨⟨by decide, by decide, by decide, by decide⟩,
    c9PerOccurrence c9Design (str "dpx_") ⟨1, str "dpx_part", []⟩
      (by decide) (by decide) (by decide) (by decide)⟩

